import Mathlib

/-!
Shallow embedding of the figma-to-next-sync tools (src/sync.py, src/review.py):
the review decision store, the label registry, the change classifier, the tree
scanner's file filter, the update apply engine, and the unified-diff hunk
machinery.  Python dicts are modelled as association lists with insertion-order
preserving update semantics, matching CPython dict behaviour.
-/

namespace FigmaSync

/-- Python-dict lookup `m[k]` / `m.get(k)`: first (and, for genuine dicts,
only) binding of the key. -/
def dlookup {κ α : Type} [DecidableEq κ] : List (κ × α) → κ → Option α
  | [], _ => none
  | (k, v) :: m, key => if k = key then some v else dlookup m key

/-- Python-dict assignment `m[k] = v`: updates the binding in place when the
key is present and appends it at the end otherwise (CPython insertion order). -/
def dinsert {κ α : Type} [DecidableEq κ] : List (κ × α) → κ → α → List (κ × α)
  | [], k, v => [(k, v)]
  | (k', v') :: m, k, v => if k' = k then (k, v) :: m else (k', v') :: dinsert m k v

/-- Python-dict deletion `del m[k]` (keys are unique in a dict, so removing
every binding of the key coincides with removing the single one). -/
def derase {κ α : Type} [DecidableEq κ] : List (κ × α) → κ → List (κ × α)
  | [], _ => []
  | (k', v') :: m, k => if k' = k then derase m k else (k', v') :: derase m k

/-- The key list of a modelled dict. -/
def dkeys {κ α : Type} (m : List (κ × α)) : List κ := m.map Prod.fst

/-! Review decision store (review.py).  The persisted JSON has three buckets
`approved`, `rejected` and a third one that the source calls "partial"; that
word is a Lean keyword, so the bucket is named `mixed` in this development. -/

/-- Value stored in the mixed ("partial") bucket by `review_file`
(review.py lines 236-242): file path, hunk counts and a timestamp. -/
structure MixedEntry where
  file : String
  approved : Nat
  rejected : Nat
  total : Nat
  timestamp : String
  deriving DecidableEq, Repr

/-- The review decision store of review.py (`review_decisions.json`):
`approved` and `rejected` map labels to file paths, the mixed bucket maps
labels to `MixedEntry` records. -/
structure Decisions where
  approved : List (String × String)
  rejected : List (String × String)
  mixed : List (String × MixedEntry)
  deriving DecidableEq, Repr

/-- The store `_load_decisions` returns when no decisions file exists
(review.py lines 58-62). -/
def emptyDecisions : Decisions := ⟨[], [], []⟩

/-- Outcome of one hunk in the interactive loop of `review_file`
(review.py lines 178-209): accept, reject, or skip. -/
inductive HunkDecision where
  | approved
  | rejected
  | skipped
  deriving DecidableEq, Repr

/-- The decision recorded by `review_file` once every hunk of the diff has
been visited (review.py lines 217-245): if the number of approved hunks
equals the number of hunks the label moves to `approved` and is deleted from
the mixed bucket; if the number of rejected hunks equals the number of hunks
it moves to `rejected` and is deleted from the mixed bucket; otherwise a
`MixedEntry` with the counts is stored in the mixed bucket (and nothing is
deleted from `approved` or `rejected`). -/
def review_file_record (s : Decisions) (label file ts : String)
    (hd : List HunkDecision) : Decisions :=
  let a := hd.countP (fun d => d == HunkDecision.approved)
  let r := hd.countP (fun d => d == HunkDecision.rejected)
  let n := hd.length
  if a = n then
    { s with approved := dinsert s.approved label file,
             mixed := derase s.mixed label }
  else if r = n then
    { s with rejected := dinsert s.rejected label file,
             mixed := derase s.mixed label }
  else
    { s with mixed := dinsert s.mixed label ⟨file, a, r, n, ts⟩ }

/-- Quick-review accept (review.py lines 291-293): the label is written to
`approved`; no other bucket is touched. -/
def quick_review_accept (s : Decisions) (label file : String) : Decisions :=
  { s with approved := dinsert s.approved label file }

/-- Quick-review reject (review.py lines 294-296): the label is written to
`rejected`; no other bucket is touched. -/
def quick_review_reject (s : Decisions) (label file : String) : Decisions :=
  { s with rejected := dinsert s.rejected label file }

/-- Promotion test of the `--fix-decisions` pass: every hunk approved and a
positive hunk count (review.py line 491). -/
def promoteApproved (e : MixedEntry) : Bool :=
  e.approved == e.total && e.total != 0

/-- Promotion test of the `--fix-decisions` pass: every hunk rejected and a
positive hunk count (review.py line 497). -/
def promoteRejected (e : MixedEntry) : Bool :=
  e.rejected == e.total && e.total != 0

/-- One iteration of the `--fix-decisions` loop body (review.py lines
489-501) for the snapshot entry `le`: fully-approved entries move to
`approved`, otherwise fully-rejected entries move to `rejected`; in either
case the label is deleted from the mixed bucket. -/
def fix_decisions_step (s : Decisions) (le : String × MixedEntry) : Decisions :=
  if promoteApproved le.2 then
    { s with approved := dinsert s.approved le.1 le.2.file,
             mixed := derase s.mixed le.1 }
  else if promoteRejected le.2 then
    { s with rejected := dinsert s.rejected le.1 le.2.file,
             mixed := derase s.mixed le.1 }
  else s

/-- The `--fix-decisions` reconciliation pass (review.py lines 486-509):
iterate over a snapshot (`list(...items())`) of the mixed bucket, mutating
the store.  Every entry is a record, so the `isinstance(details, dict)`
guard of the source is always true here. -/
def fix_decisions (s : Decisions) : Decisions :=
  s.mixed.foldl fix_decisions_step s

/-- Generic over-a-snapshot insertion fold: the effect of a store-mutating
loop on an `approved`/`rejected`-style bucket, inserting the entries of the
snapshot that satisfy `P`. -/
def foldIns (P : MixedEntry → Bool) :
    List (String × String) → List (String × MixedEntry) → List (String × String)
  | a, [] => a
  | a, le :: snap => foldIns P (if P le.2 then dinsert a le.1 le.2.file else a) snap

/-- Generic over-a-snapshot erase fold: the effect of a store-mutating loop
on the mixed bucket, erasing the keys of snapshot entries satisfying `P`. -/
def foldErase (P : MixedEntry → Bool) :
    List (String × MixedEntry) → List (String × MixedEntry) → List (String × MixedEntry)
  | p, [] => p
  | p, le :: snap => foldErase P (if P le.2 then derase p le.1 else p) snap

/-- The promotion sweep at the top of `apply_decisions` (review.py lines
363-370): every mixed-bucket entry whose approved count equals its total is
copied into `approved`; the mixed bucket itself is NOT touched, and the
store is not saved afterwards. -/
def apply_decisions_promote (s : Decisions) : Decisions :=
  { s with approved := foldIns (fun e => e.approved == e.total) s.approved s.mixed }

/-- A concrete decision store with one fully-approved, one fully-rejected
and one genuinely mixed entry in the mixed ("partial") bucket. -/
def reconDemoStore : Decisions :=
  ⟨[], [], [("U001", ⟨"a.ts", 2, 0, 2, "tA"⟩),
            ("U002", ⟨"b.ts", 0, 3, 3, "tB"⟩),
            ("U003", ⟨"c.ts", 1, 1, 3, "tC"⟩)]⟩

/-! Label registry (sync.py).  `process_new_folders`, `process_new_files`
and `process_updated_files` assign the F/N/U labels; the diff/preview
artifacts they also write are filesystem side effects not needed here. -/

/-- Python `f"{idx:03d}"`: decimal rendering zero-padded to width 3 (for the
positive indices the labeller produces). -/
def pad3 (n : Nat) : String :=
  if n < 10 then "00" ++ toString n
  else if n < 100 then "0" ++ toString n
  else toString n

/-- Python `str(Path(p).parent)` for the slash-separated relative paths the
scanner produces: everything before the last slash, or "." when the path
has a single component. -/
def dirname (p : String) : String :=
  let comps := p.splitOn "/"
  if comps.length ≤ 1 then "." else String.intercalate "/" comps.dropLast

/-- Strict code-point comparison of characters (Python compares strings by
Unicode code points). -/
def charLt (c d : Char) : Bool := decide (c.toNat < d.toNat)

/-- Lexicographic less-or-equal on character lists by code points: the
order Python `sorted` uses on strings. -/
def charListLe : List Char → List Char → Bool
  | [], _ => true
  | _ :: _, [] => false
  | c :: cs, d :: ds =>
    if charLt c d then true
    else if charLt d c then false
    else charListLe cs ds

/-- Python string less-or-equal (code-point lexicographic). -/
def strLe (a b : String) : Bool := charListLe a.data b.data

/-- Ordered insertion into an ascending list (helper for `sortStr`). -/
def insertSorted (x : String) : List String → List String
  | [] => [x]
  | y :: ys => if strLe x y then x :: y :: ys else y :: insertSorted x ys

/-- Python `sorted` on a list of strings: the ascending code-point
lexicographic reordering (computed by insertion sort, which returns the
same sorted list `sorted` returns). -/
def sortStr (xs : List String) : List String := xs.foldr insertSorted []

/-- Label assignment loop: prefix plus zero-padded counter starting at
`k`, one label per list element in list order (the `enumerate(..., 1)` /
`label_counter` pattern of sync.py). -/
def labelFrom (pre : String) : Nat → List String → List (String × String)
  | _, [] => []
  | k, p :: ps => (pre ++ pad3 k, p) :: labelFrom pre (k + 1) ps

/-- sync.py `process_new_folders` (lines 124-160): folders are labelled
`F001, F002, ...` by `enumerate(self.new_folders, 1)` — in the order the
folder list was accumulated by the scan, with NO sorting. -/
def process_new_folders (folders : List String) : List (String × String) :=
  labelFrom "F" 1 folders

/-- One step of building `files_by_dir`: append the file to its directory's
group, creating the group at the end on first sight (Python dict insertion
order). -/
def addToGroup : List (String × List String) → String → String → List (String × List String)
  | [], d, f => [(d, [f])]
  | (d0, fs) :: gs, d, f =>
    if d0 = d then (d0, fs ++ [f]) :: gs else (d0, fs) :: addToGroup gs d f

/-- sync.py lines 171-176: `files_by_dir` maps `str(Path(fp).parent)` to the
files under it, in encounter order. -/
def groupByDir (files : List String) : List (String × List String) :=
  files.foldl (fun acc f => addToGroup acc (dirname f) f) []

/-- Dict access `files_by_dir[d]` (empty when the key is absent). -/
def getGroup (g : List (String × List String)) (d : String) : List String :=
  (dlookup g d).getD []

/-- sync.py `process_new_files` (lines 162-216): group new files by their
directory, then walk the directories in sorted order and the files of each
directory in sorted order, assigning `N001, N002, ...` with one continuous
counter. -/
def process_new_files (files : List String) : List (String × String) :=
  let g := groupByDir files
  labelFrom "N" 1
    ((sortStr (dkeys g)).foldr (fun d acc => sortStr (getGroup g d) ++ acc) [])

/-- sync.py `process_updated_files` (lines 218-237): updated files are
labelled `U001, U002, ...` over `sorted(self.updated_files)`. -/
def process_updated_files (updated : List String) : List (String × String) :=
  labelFrom "U" 1 (sortStr updated)

/-- The order in which `process_new_files` emits paths: directories of the
grouping in sorted order, and inside each directory its files in sorted
order (one flat list). -/
def groupedSortedOrder (files : List String) : List String :=
  (sortStr (dkeys (groupByDir files))).foldr
    (fun d acc => sortStr (files.filter (fun f => dirname f == d)) ++ acc) []

/-! Change classifier (sync.py `scan_projects`, lines 56-86), generic in
the path type so it can be reused for string paths and for component-list
paths. -/

/-- Result of `_get_project_structure`: folder list plus file-to-hash dict. -/
structure ProjStructure (α : Type) where
  folders : List α
  files : List (α × String)
  deriving DecidableEq, Repr

/-- The six buckets `scan_projects` fills. -/
structure ChangeSet (α : Type) where
  newFolders : List α
  deletedFolders : List α
  newFiles : List α
  updatedFiles : List α
  identicalFiles : List α
  deletedFiles : List α
  deriving DecidableEq, Repr

/-- sync.py `scan_projects` (lines 56-86): folders present only on one side
go to newFolders / deletedFolders; each new-side file goes to newFiles,
updatedFiles or identicalFiles according to its presence and hash in the
old side; old-side files absent from the new side go to deletedFiles.
Folders present on BOTH sides are put in no bucket at all. -/
def classify {α : Type} [DecidableEq α] (old new : ProjStructure α) : ChangeSet α where
  newFolders := new.folders.filter (fun p => decide (p ∉ old.folders))
  deletedFolders := old.folders.filter (fun p => decide (p ∉ new.folders))
  newFiles := (new.files.filter (fun e => (dlookup old.files e.1).isNone)).map Prod.fst
  updatedFiles := (new.files.filter (fun e =>
      match dlookup old.files e.1 with
      | some h => decide (h ≠ e.2)
      | none => false)).map Prod.fst
  identicalFiles := (new.files.filter (fun e =>
      match dlookup old.files e.1 with
      | some h => decide (h = e.2)
      | none => false)).map Prod.fst
  deletedFiles := (old.files.filter (fun e => (dlookup new.files e.1).isNone)).map Prod.fst

/-! Tree scanner (sync.py `_get_project_structure`, lines 88-122).  An
`os.walk` traversal is modelled as the list of visited (root, dirs, files)
triples, with paths as component lists (the `Path` objects of the source);
file readability is modelled by a partial hash function. -/

/-- One `os.walk` step: the relative root (as path components), the
subdirectory names and the file names found there. -/
structure WalkEntry where
  root : List String
  dirs : List String
  files : List String
  deriving DecidableEq, Repr

/-- sync.py line 97: directory names pruned from the walk. -/
def ignoredDirs : List String := ["node_modules", ".next", "dist", ".git", "build"]

/-- Does the second character list begin with the first one? -/
def leadMatch : List Char → List Char → Bool
  | [], _ => true
  | _ :: _, [] => false
  | c :: cs, d :: ds => if c.toNat = d.toNat then leadMatch cs ds else false

/-- Python `s.startswith(p)` on strings (code-point comparison). -/
def strStarts (s p : String) : Bool := leadMatch p.data s.data

/-- Python `s.endswith(p)` on strings (code-point comparison). -/
def strEnds (s p : String) : Bool := leadMatch p.data.reverse s.data.reverse

/-- sync.py line 108: file names silently excluded from the scan
(`file_name.startswith('.') or file_name.endswith(('.pyc', '.log'))`). -/
def skip_file (name : String) : Bool :=
  strStarts name "." || strEnds name ".pyc" || strEnds name ".log"

/-- The folder entries of `_get_project_structure`: for each walk step, the
non-ignored directory names joined to the step's root. -/
def scanFolders : List WalkEntry → List (List String)
  | [] => []
  | e :: walk =>
    (e.dirs.filter (fun d => decide (d ∉ ignoredDirs))).map (fun d => e.root ++ [d])
      ++ scanFolders walk

/-- The file entries of `_get_project_structure`: for each walk step, each
file name that is not skipped and whose content can be hashed contributes
(root/name, hash); unreadable files are reported and excluded
(lines 106-120). -/
def scanFiles (readHash : List String → Option String) :
    List WalkEntry → List (List String × String)
  | [] => []
  | e :: walk =>
    e.files.filterMap (fun f =>
      if skip_file f then none
      else (readHash (e.root ++ [f])).map (fun h => (e.root ++ [f], h)))
      ++ scanFiles readHash walk

/-- sync.py `_get_project_structure` (lines 88-122). -/
def get_project_structure (walk : List WalkEntry)
    (readHash : List String → Option String) : ProjStructure (List String) :=
  ⟨scanFolders walk, scanFiles readHash walk⟩

/-- The basename (final component) of a component-list path. -/
def basename : List String → String
  | [] => ""
  | f :: rest => if rest.isEmpty then f else basename rest

/-! Apply engine for updates (sync.py `apply_change`, update branch, lines
423-440; review.py `apply_decisions`, lines 378-395 does the same two
copies).  The filesystem is modelled as a dict from path to byte content;
`shutil.copy2(a, b)` is `fs[b] = fs[a]`, raising (modelled as `none`) when
the source does not exist.  `dest.with_suffix(dest.suffix + ".backup")`
appends ".backup" to the path (the old suffix is replaced by itself plus
".backup"). -/

/-- sync.py lines 428-440: back the destination up to `dst ++ ".backup"`
(unconditionally overwriting any existing backup), then copy the source
over the destination. -/
def apply_change_update (fs : List (String × String)) (src dst : String) :
    Option (List (String × String)) :=
  match dlookup fs dst with
  | none => none
  | some cD =>
    let fs1 := dinsert fs (dst ++ ".backup") cD
    match dlookup fs1 src with
    | none => none
    | some cS => some (dinsert fs1 dst cS)

/-! Unified-diff hunks (review.py `_parse_diff_file` lines 69-106 and
`_apply_hunk` lines 127-148).  A hunk carries the ranges parsed from its
`@@ -a,b +c,d @@` header and its raw body lines (leading marker character
kept, trailing newline kept, exactly as `readlines` returns them). -/

/-- A parsed diff hunk (review.py lines 86-95; the display-only fields
`header`, `context` and the running `changes` counters are omitted). -/
structure Hunk where
  old_start : Nat
  old_count : Nat
  new_start : Nat
  new_count : Nat
  lines : List String
  deriving DecidableEq, Repr

/-- Python `line[1:]`: the string without its first character. -/
def strDrop1 (s : String) : String := ⟨s.data.drop 1⟩

/-- review.py lines 132-138: the replacement text of a hunk — every
non-removed line, with `+` and context-space markers stripped. -/
def hunkNewContent (h : Hunk) : List String :=
  h.lines.filterMap (fun line =>
    if strStarts line "-" then none
    else if strStarts line "+" then some (strDrop1 line)
    else some (if strStarts line " " then strDrop1 line else line))

/-- The old-side text of a hunk: every non-added line, with `-` and
context-space markers stripped (what the hunk claims stood in the old
file at its old range). -/
def hunkOldContent (h : Hunk) : List String :=
  h.lines.filterMap (fun line =>
    if strStarts line "+" then none
    else if strStarts line "-" then some (strDrop1 line)
    else some (if strStarts line " " then strDrop1 line else line))

/-- review.py `_apply_hunk` (lines 127-148): splice the hunk's replacement
text over `orig[old_start - 1 : old_start - 1 + old_count]` — the slice
assignment `result[start:end] = new_content`. -/
def apply_hunk (orig : List String) (h : Hunk) : List String :=
  orig.take (h.old_start - 1) ++ hunkNewContent h
    ++ orig.drop (h.old_start - 1 + h.old_count)

/-- Applying all hunks of a diff in file order, each at its own
`old_start`/`old_count` range, to the original lines — the only way the
code can apply a multi-hunk review, since `_apply_hunk` takes the ranges
straight from the headers. -/
def applyAllHunks (orig : List String) (hs : List Hunk) : List String :=
  hs.foldl apply_hunk orig

/-- Slice `xs[start : start + len]`. -/
def sliceL (xs : List String) (start len : Nat) : List String :=
  (xs.drop start).take len

/-- The standard unified-diff contract between old lines `a`, new lines
`b` and a hunk list, checked left to right with cursors `ao` into `a` and
`bo` into `b` (0-based): hunks are in order, aligned, their old/new sides
match the corresponding slices of `a`/`b`, their counts are the lengths of
those sides, the context between hunks is unchanged, and the remainders
after the last hunk coincide. -/
def hunksMatchB : Nat → Nat → List String → List String → List Hunk → Bool
  | ao, bo, a, b, [] => decide (a.drop ao = b.drop bo)
  | ao, bo, a, b, h :: rest =>
    decide (1 ≤ h.old_start) && decide (1 ≤ h.new_start) &&
    decide (ao ≤ h.old_start - 1) && decide (bo ≤ h.new_start - 1) &&
    decide (h.old_start - 1 - ao = h.new_start - 1 - bo) &&
    decide (sliceL a ao (h.old_start - 1 - ao) = sliceL b bo (h.new_start - 1 - bo)) &&
    decide (sliceL a (h.old_start - 1) h.old_count = hunkOldContent h) &&
    decide (sliceL b (h.new_start - 1) h.new_count = hunkNewContent h) &&
    decide (h.old_count = (hunkOldContent h).length) &&
    decide (h.new_count = (hunkNewContent h).length) &&
    hunksMatchB (h.old_start - 1 + h.old_count) (h.new_start - 1 + h.new_count) a b rest

/-- Old file for the C9 failing input: twelve numbered lines. -/
def exOldLines : List String :=
  ["1\n", "2\n", "3\n", "4\n", "5\n", "6\n", "7\n", "8\n", "9\n",
   "10\n", "11\n", "12\n"]

/-- New file for the C9 failing input: line "1" deleted, line "12"
replaced by "X". -/
def exNewLines : List String :=
  ["2\n", "3\n", "4\n", "5\n", "6\n", "7\n", "8\n", "9\n", "10\n",
   "11\n", "X\n"]

/-- First hunk of the unified diff (context 3) of the two files:
`@@ -1,4 +1,3 @@`, deleting line "1". -/
def exHunk1 : Hunk := ⟨1, 4, 1, 3, ["-1\n", " 2\n", " 3\n", " 4\n"]⟩

/-- Second hunk: `@@ -9,4 +8,4 @@`, replacing line "12" by "X". -/
def exHunk2 : Hunk := ⟨9, 4, 8, 4, [" 9\n", " 10\n", " 11\n", "-12\n", "+X\n"]⟩

/-! Per-item error handling (sync.py `_create_diff_file` lines 269-295,
the preview copies of `process_updated_files` lines 252-253, and the
artifact lookup of review.py `review_file` lines 156-162).  File states
are modelled by `FileRead`; an uncaught Python exception is modelled as
an error value terminating the operation. -/

/-- Added/removed line counters of a diff (sync.py lines 285-286). -/
structure DiffStats where
  added : Nat
  removed : Nat
  deriving DecidableEq, Repr

/-- sync.py line 285: lines starting with "+" but not "+++". -/
def count_added (d : List String) : Nat :=
  d.countP (fun l => strStarts l "+" && !(strStarts l "+++"))

/-- sync.py line 286: lines starting with "-" but not "---". -/
def count_removed (d : List String) : Nat :=
  d.countP (fun l => strStarts l "-" && !(strStarts l "---"))

/-- sync.py `_create_diff_file` (lines 269-295), parameterised by the
external library diff generator (`difflib.unified_diff`): when both files
are readable it writes the diff text and returns its counts; when either
read fails, the exception is caught, a warning is printed, NO diff file is
written, and zero counts are returned. -/
def create_diff_file (udiff : List String → List String → List String)
    (oldLines newLines : Option (List String)) :
    Option (List String) × DiffStats :=
  match oldLines, newLines with
  | some o, some n =>
    (some (udiff o n), ⟨count_added (udiff o n), count_removed (udiff o n)⟩)
  | _, _ => (none, ⟨0, 0⟩)

/-- The three states an updated file's old or new version can be in for
the per-file loop: it cannot be opened at all (`open` AND `shutil.copy2`
both raise); it is readable as bytes but not valid UTF-8 (the text read in
`_create_diff_file` raises UnicodeDecodeError, yet `copy2` succeeds); or it
is readable UTF-8 text with the given lines. -/
inductive FileRead where
  | missing
  | binary
  | text (lines : List String)
  deriving DecidableEq, Repr

/-- The UTF-8 `readlines` of `_create_diff_file` (sync.py lines 272-275):
only a text file yields lines; a missing or undecodable file raises, which
that function catches. -/
def textLines : FileRead → Option (List String)
  | FileRead.text lines => some lines
  | _ => none

/-- Can `shutil.copy2` read this file as its source?  Only a file that
cannot be opened at all makes it raise. -/
def copyable : FileRead → Bool
  | FileRead.missing => false
  | _ => true

/-- The per-file body of `process_updated_files` (sync.py lines 235-267):
for each updated file in order, `_create_diff_file` runs first (its read
and decode errors are caught, yielding zero counts), and then
`shutil.copy2(old_file, .OLD)` and `shutil.copy2(new_file, .NEW)`
(lines 252-253) copy the two versions — these raise UNCAUGHT when the
source cannot be read, aborting the whole loop.  The result is the list of
per-file stats completed before any abort, together with the uncaught
error if one occurred. -/
def process_updated_files_loop (udiff : List String → List String → List String)
    (readOld readNew : String → FileRead) :
    List String → List (String × DiffStats) × Option String
  | [] => ([], none)
  | p :: ps =>
    if copyable (readOld p) = false then ([], some "IOError")
    else if copyable (readNew p) = false then ([], some "IOError")
    else
      ((p, (create_diff_file udiff (textLines (readOld p)) (textLines (readNew p))).2)
          :: (process_updated_files_loop udiff readOld readNew ps).1,
        (process_updated_files_loop udiff readOld readNew ps).2)

/-- `list(update_dir.glob(pat))[0]` modelled on the directory's file-name
list: first name with the extension, if any. -/
def globFirst (ext : String) (files : List String) : Option String :=
  (files.filter (fun f => strEnds f ext)).head?

/-- review.py lines 160-162: the three preview artifacts are located by
indexing the glob result at 0; a missing match raises an uncaught
IndexError, aborting `review_file`. -/
def review_file_artifacts (arts : List String) :
    Except String (String × String × String) :=
  match globFirst ".diff" arts with
  | none => Except.error "IndexError"
  | some d =>
    match globFirst ".OLD" arts with
    | none => Except.error "IndexError"
    | some o =>
      match globFirst ".NEW" arts with
      | none => Except.error "IndexError"
      | some n => Except.ok (d, o, n)

theorem dlookup_dinsert_self {κ α : Type} [DecidableEq κ]
    (m : List (κ × α)) (k : κ) (v : α) :
    dlookup (dinsert m k v) k = some v := by
  induction m with
  | nil => simp [dinsert, dlookup]
  | cons e m ih =>
    obtain ⟨k', v'⟩ := e
    by_cases h : k' = k <;> simp [dinsert, dlookup, h, ih]

theorem dlookup_dinsert_ne {κ α : Type} [DecidableEq κ]
    (m : List (κ × α)) (k k₂ : κ) (v : α) (h : k₂ ≠ k) :
    dlookup (dinsert m k v) k₂ = dlookup m k₂ := by
  induction m with
  | nil => simp [dinsert, dlookup, Ne.symm h]
  | cons e m ih =>
    obtain ⟨k', v'⟩ := e
    by_cases hk : k' = k
    · subst hk
      simp [dinsert, dlookup, Ne.symm h]
    · by_cases hk2 : k' = k₂ <;> simp [dinsert, dlookup, hk, hk2, ih, h]

theorem dlookup_derase_self {κ α : Type} [DecidableEq κ]
    (m : List (κ × α)) (k : κ) :
    dlookup (derase m k) k = none := by
  induction m with
  | nil => simp [derase, dlookup]
  | cons e m ih =>
    obtain ⟨k', v'⟩ := e
    by_cases h : k' = k <;> simp [derase, dlookup, h, ih]

theorem dlookup_derase_ne {κ α : Type} [DecidableEq κ]
    (m : List (κ × α)) (k k₂ : κ) (h : k₂ ≠ k) :
    dlookup (derase m k) k₂ = dlookup m k₂ := by
  induction m with
  | nil => simp [derase, dlookup]
  | cons e m ih =>
    obtain ⟨k', v'⟩ := e
    by_cases hk : k' = k
    · subst hk
      simp [derase, dlookup, Ne.symm h, ih]
    · by_cases hk2 : k' = k₂ <;> simp [derase, dlookup, hk, hk2, ih, h]

theorem dlookup_derase_none {κ α : Type} [DecidableEq κ]
    (m : List (κ × α)) (k k₂ : κ) (h : dlookup m k₂ = none) :
    dlookup (derase m k) k₂ = none := by
  by_cases hk : k₂ = k
  · subst hk
    exact dlookup_derase_self m k₂
  · rw [dlookup_derase_ne m k k₂ hk]
    exact h

theorem dlookup_ne_none_of_mem {κ α : Type} [DecidableEq κ]
    (m : List (κ × α)) (k : κ) (v : α) (h : (k, v) ∈ m) :
    dlookup m k ≠ none := by
  induction m with
  | nil => simp at h
  | cons e m ih =>
    obtain ⟨k', v'⟩ := e
    by_cases hk : k' = k
    · simp [dlookup, hk]
    · simp [dlookup, hk]
      rcases List.mem_cons.mp h with h1 | h1
      · exact absurd (congrArg Prod.fst h1).symm hk
      · exact ih h1

theorem dlookup_eq_of_nodup {κ α : Type} [DecidableEq κ]
    (m : List (κ × α)) (k : κ) (v : α)
    (hnd : (dkeys m).Nodup) (h : (k, v) ∈ m) :
    dlookup m k = some v := by
  induction m with
  | nil => simp at h
  | cons e m ih =>
    obtain ⟨k', v'⟩ := e
    rcases List.mem_cons.mp h with h1 | h1
    · have hk : k = k' := congrArg Prod.fst h1
      have hv : v = v' := congrArg Prod.snd h1
      simp [dlookup, hk.symm, hv.symm]
    · have hk : k' ≠ k := by
        intro he
        subst he
        exact (List.nodup_cons.mp hnd).1 (List.mem_map.mpr ⟨(k', v), h1, rfl⟩)
      simp [dlookup, hk, ih (List.nodup_cons.mp hnd).2 h1]

theorem mem_of_dlookup_eq_some {κ α : Type} [DecidableEq κ]
    (m : List (κ × α)) (k : κ) (v : α) (h : dlookup m k = some v) :
    (k, v) ∈ m := by
  induction m with
  | nil => simp [dlookup] at h
  | cons e m ih =>
    obtain ⟨k', v'⟩ := e
    by_cases hk : k' = k
    · subst hk
      simp [dlookup] at h
      simp [h]
    · simp [dlookup, hk] at h
      exact List.mem_cons_of_mem _ (ih h)

theorem mem_dkeys_iff_dlookup {κ α : Type} [DecidableEq κ]
    (m : List (κ × α)) (k : κ) :
    k ∈ dkeys m ↔ dlookup m k ≠ none := by
  constructor
  · intro h
    obtain ⟨⟨k', v⟩, hm, he⟩ := List.mem_map.mp h
    subst he
    exact dlookup_ne_none_of_mem m _ v hm
  · intro h
    match he : dlookup m k with
    | none => exact absurd he h
    | some v => exact List.mem_map.mpr ⟨(k, v), mem_of_dlookup_eq_some m k v he, rfl⟩

theorem mem_of_mem_derase {κ α : Type} [DecidableEq κ]
    (m : List (κ × α)) (k : κ) (e : κ × α) (h : e ∈ derase m k) :
    e ∈ m := by
  induction m with
  | nil => simp [derase] at h
  | cons e' m ih =>
    obtain ⟨k', v'⟩ := e'
    by_cases hk : k' = k
    · simp [derase, hk] at h
      exact List.mem_cons_of_mem _ (ih h)
    · simp [derase, hk] at h
      rcases h with h | h
      · simp [h]
      · exact List.mem_cons_of_mem _ (ih h)

theorem foldIns_not_mem_keys (P : MixedEntry → Bool)
    (snap : List (String × MixedEntry)) (a : List (String × String)) (k : String)
    (h : k ∉ dkeys snap) :
    dlookup (foldIns P a snap) k = dlookup a k := by
  induction snap generalizing a with
  | nil => rfl
  | cons le snap ih =>
    have hk : k ∉ dkeys snap := fun hm => h (List.mem_cons_of_mem _ hm)
    have hne : k ≠ le.1 := fun he => h (by simp [dkeys, he])
    by_cases hP : P le.2 = true
    · rw [foldIns, if_pos hP, ih _ hk, dlookup_dinsert_ne _ _ _ _ hne]
    · rw [foldIns, if_neg hP, ih _ hk]

theorem foldIns_mem (P : MixedEntry → Bool)
    (snap : List (String × MixedEntry)) (a : List (String × String))
    (k : String) (e : MixedEntry)
    (hnd : (dkeys snap).Nodup) (hm : (k, e) ∈ snap) (hP : P e = true) :
    dlookup (foldIns P a snap) k = some e.file := by
  induction snap generalizing a with
  | nil => simp at hm
  | cons le snap ih =>
    have hnd' : le.1 ∉ dkeys snap ∧ (dkeys snap).Nodup := List.nodup_cons.mp hnd
    rcases List.mem_cons.mp hm with h1 | h1
    · have hk1 : le.1 = k := (congrArg Prod.fst h1).symm
      have he2 : le.2 = e := (congrArg Prod.snd h1).symm
      have hkk : k ∉ dkeys snap := hk1 ▸ hnd'.1
      rw [foldIns, if_pos (he2 ▸ hP), foldIns_not_mem_keys _ _ _ _ hkk,
        hk1, dlookup_dinsert_self, he2]
    · by_cases hP2 : P le.2 = true
      · rw [foldIns, if_pos hP2]
        exact ih _ hnd'.2 h1
      · rw [foldIns, if_neg hP2]
        exact ih _ hnd'.2 h1

theorem foldIns_id (P : MixedEntry → Bool)
    (snap : List (String × MixedEntry)) (a : List (String × String))
    (h : ∀ le ∈ snap, P le.2 = false) :
    foldIns P a snap = a := by
  induction snap generalizing a with
  | nil => rfl
  | cons le snap ih =>
    rw [foldIns, if_neg (by rw [h le (List.mem_cons_self le snap)]; simp)]
    exact ih a (fun x hx => h x (List.mem_cons_of_mem _ hx))

theorem foldErase_none (P : MixedEntry → Bool)
    (snap p : List (String × MixedEntry)) (k : String)
    (h : dlookup p k = none) :
    dlookup (foldErase P p snap) k = none := by
  induction snap generalizing p with
  | nil => exact h
  | cons le snap ih =>
    by_cases hP : P le.2 = true
    · rw [foldErase, if_pos hP]
      exact ih _ (dlookup_derase_none _ _ _ h)
    · rw [foldErase, if_neg hP]
      exact ih _ h

theorem foldErase_mem_none (P : MixedEntry → Bool)
    (snap p : List (String × MixedEntry)) (k : String) (e : MixedEntry)
    (hm : (k, e) ∈ snap) (hP : P e = true) :
    dlookup (foldErase P p snap) k = none := by
  induction snap generalizing p with
  | nil => simp at hm
  | cons le snap ih =>
    rcases List.mem_cons.mp hm with h1 | h1
    · have hk1 : le.1 = k := (congrArg Prod.fst h1).symm
      have he2 : le.2 = e := (congrArg Prod.snd h1).symm
      rw [foldErase, if_pos (he2 ▸ hP)]
      exact foldErase_none _ _ _ _ (hk1 ▸ dlookup_derase_self p le.1)
    · by_cases hP2 : P le.2 = true
      · rw [foldErase, if_pos hP2]; exact ih _ h1
      · rw [foldErase, if_neg hP2]; exact ih _ h1

theorem foldErase_subset (P : MixedEntry → Bool)
    (snap p : List (String × MixedEntry)) (x : String × MixedEntry)
    (h : x ∈ foldErase P p snap) :
    x ∈ p := by
  induction snap generalizing p with
  | nil => exact h
  | cons le snap ih =>
    by_cases hP : P le.2 = true
    · rw [foldErase, if_pos hP] at h
      exact mem_of_mem_derase _ _ _ (ih _ h)
    · rw [foldErase, if_neg hP] at h
      exact ih _ h

theorem fix_foldl_approved (snap : List (String × MixedEntry)) :
    ∀ s : Decisions,
      (snap.foldl fix_decisions_step s).approved = foldIns promoteApproved s.approved snap := by
  induction snap with
  | nil => intro s; rfl
  | cons le snap ih =>
    intro s
    rw [List.foldl_cons, ih, foldIns]
    congr 1
    by_cases h1 : promoteApproved le.2 = true <;>
      by_cases h2 : promoteRejected le.2 = true <;>
      simp [fix_decisions_step, h1, h2]

theorem fix_foldl_rejected (snap : List (String × MixedEntry)) :
    ∀ s : Decisions,
      (snap.foldl fix_decisions_step s).rejected =
        foldIns (fun e => !promoteApproved e && promoteRejected e) s.rejected snap := by
  induction snap with
  | nil => intro s; rfl
  | cons le snap ih =>
    intro s
    rw [List.foldl_cons, ih, foldIns]
    congr 1
    by_cases h1 : promoteApproved le.2 = true <;>
      by_cases h2 : promoteRejected le.2 = true <;>
      simp [fix_decisions_step, h1, h2]

theorem fix_foldl_mixed (snap : List (String × MixedEntry)) :
    ∀ s : Decisions,
      (snap.foldl fix_decisions_step s).mixed =
        foldErase (fun e => promoteApproved e || promoteRejected e) s.mixed snap := by
  induction snap with
  | nil => intro s; rfl
  | cons le snap ih =>
    intro s
    rw [List.foldl_cons, ih, foldErase]
    congr 1
    by_cases h1 : promoteApproved le.2 = true <;>
      by_cases h2 : promoteRejected le.2 = true <;>
      simp [fix_decisions_step, h1, h2]

theorem foldl_fix_id (snap : List (String × MixedEntry)) :
    ∀ s : Decisions,
      (∀ le ∈ snap, promoteApproved le.2 = false ∧ promoteRejected le.2 = false) →
      snap.foldl fix_decisions_step s = s := by
  induction snap with
  | nil => intro s _; rfl
  | cons le snap ih =>
    intro s h
    have h0 := h le (List.mem_cons_self le snap)
    have hstep : fix_decisions_step s le = s := by
      simp [fix_decisions_step, h0.1, h0.2]
    rw [List.foldl_cons, hstep]
    exact ih s (fun x hx => h x (List.mem_cons_of_mem _ hx))

theorem fix_decisions_mixed_not_promotable (s : Decisions) :
    ∀ le ∈ (fix_decisions s).mixed,
      promoteApproved le.2 = false ∧ promoteRejected le.2 = false := by
  intro le hle
  have hmix : (fix_decisions s).mixed =
      foldErase (fun e => promoteApproved e || promoteRejected e) s.mixed s.mixed :=
    fix_foldl_mixed s.mixed s
  have hin : le ∈ s.mixed := foldErase_subset _ _ _ _ (hmix ▸ hle)
  by_cases hp : (promoteApproved le.2 || promoteRejected le.2) = true
  · have hnone : dlookup (fix_decisions s).mixed le.1 = none := by
      rw [hmix]
      exact foldErase_mem_none _ _ _ _ le.2 hin hp
    exact absurd hnone (dlookup_ne_none_of_mem _ le.1 le.2 hle)
  · simp only [Bool.or_eq_true, not_or, Bool.not_eq_true] at hp
    exact hp

/-- C1 (code_bug evidence): decision exclusivity is violated by the code.
Starting from an empty store, quick-review rejecting label U001 and then
quick-review accepting it (review.py lines 291-296; neither branch deletes
the label from the other buckets) leaves U001 in BOTH the approved and the
rejected bucket, so a label is duplicated across buckets, contrary to the
specified invariant. -/
theorem quick_review_duplicates_buckets :
    dlookup (quick_review_accept (quick_review_reject emptyDecisions "U001" "a.ts")
        "U001" "a.ts").approved "U001" = some "a.ts" ∧
    dlookup (quick_review_accept (quick_review_reject emptyDecisions "U001" "a.ts")
        "U001" "a.ts").rejected "U001" = some "a.ts" := by
  exact ⟨rfl, rfl⟩

/-- C4: the review transition rule of `review_file` (review.py lines
217-245).  For a non-empty hunk list in which every hunk has been visited:
all hunks approved puts the label in the approved bucket and removes it from
the mixed ("partial") bucket, leaving the rejected bucket unchanged; all
hunks rejected puts it in the rejected bucket and removes it from the mixed
bucket, leaving the approved bucket unchanged; any other outcome (mixed
decisions, or any hunk skipped) stores a mixed-bucket entry recording the
approved count, rejected count and total hunk count, leaving the approved
and rejected buckets unchanged. -/
theorem review_transition_rule (s : Decisions) (label file ts : String)
    (hd : List HunkDecision) (hne : hd ≠ []) :
    ((∀ d ∈ hd, d = HunkDecision.approved) →
      dlookup (review_file_record s label file ts hd).approved label = some file ∧
      dlookup (review_file_record s label file ts hd).mixed label = none ∧
      (review_file_record s label file ts hd).rejected = s.rejected) ∧
    ((∀ d ∈ hd, d = HunkDecision.rejected) →
      dlookup (review_file_record s label file ts hd).rejected label = some file ∧
      dlookup (review_file_record s label file ts hd).mixed label = none ∧
      (review_file_record s label file ts hd).approved = s.approved) ∧
    ((¬ ∀ d ∈ hd, d = HunkDecision.approved) →
      (¬ ∀ d ∈ hd, d = HunkDecision.rejected) →
      dlookup (review_file_record s label file ts hd).mixed label =
        some ⟨file, hd.countP (fun d => d == HunkDecision.approved),
          hd.countP (fun d => d == HunkDecision.rejected), hd.length, ts⟩ ∧
      (review_file_record s label file ts hd).approved = s.approved ∧
      (review_file_record s label file ts hd).rejected = s.rejected) := by
  refine ⟨?_, ?_, ?_⟩
  · intro hall
    have hA : hd.countP (fun d => d == HunkDecision.approved) = hd.length :=
      List.countP_eq_length.mpr (fun d hdm => by simp [hall d hdm])
    simp only [review_file_record, hA, if_true, if_pos]
    exact ⟨dlookup_dinsert_self _ _ _, dlookup_derase_self _ _, by trivial⟩
  · intro hall
    have hR : hd.countP (fun d => d == HunkDecision.rejected) = hd.length :=
      List.countP_eq_length.mpr (fun d hdm => by simp [hall d hdm])
    have hA0 : hd.countP (fun d => d == HunkDecision.approved) = 0 :=
      List.countP_eq_zero.mpr (fun d hdm => by simp [hall d hdm])
    have hlen : hd.length ≠ 0 := fun h0 => hne (List.length_eq_zero.mp h0)
    have hAne : ¬ hd.countP (fun d => d == HunkDecision.approved) = hd.length := by
      rw [hA0]; exact fun h0 => hlen h0.symm
    simp only [review_file_record, if_neg hAne, hR, if_pos]
    exact ⟨dlookup_dinsert_self _ _ _, dlookup_derase_self _ _, by trivial⟩
  · intro hnA hnR
    have hAne : ¬ hd.countP (fun d => d == HunkDecision.approved) = hd.length := by
      intro h0
      exact hnA (fun d hdm => by
        have := List.countP_eq_length.mp h0 d hdm
        simpa using this)
    have hRne : ¬ hd.countP (fun d => d == HunkDecision.rejected) = hd.length := by
      intro h0
      exact hnR (fun d hdm => by
        have := List.countP_eq_length.mp h0 d hdm
        simpa using this)
    simp only [review_file_record, if_neg hAne, if_neg hRne]
    exact ⟨dlookup_dinsert_self _ _ _, by trivial, by trivial⟩

/-- Witness for C4, instantiating the spec scenario: a 3-hunk diff with
hunks 1 and 3 approved and hunk 2 rejected yields a mixed ("partial")
record with approved=2, rejected=1, total=3. -/
theorem review_transition_rule_witness :
    dlookup (review_file_record emptyDecisions "U001" "a.ts" "t"
        [HunkDecision.approved, HunkDecision.rejected, HunkDecision.approved]).mixed
        "U001" = some ⟨"a.ts", 2, 1, 3, "t"⟩ ∧
    (review_file_record emptyDecisions "U001" "a.ts" "t"
        [HunkDecision.approved, HunkDecision.rejected, HunkDecision.approved]).approved
      = [] := by
  have h := review_transition_rule emptyDecisions "U001" "a.ts" "t"
    [HunkDecision.approved, HunkDecision.rejected, HunkDecision.approved]
    (by decide)
  have h3 := h.2.2 (by decide) (by decide)
  exact ⟨h3.1, h3.2.1⟩

/-- C5: the `--fix-decisions` reconciliation pass.  For a store whose mixed
("partial") bucket has unique labels and consistent counts
(approved + rejected ≤ total, which holds for every entry `review_file`
ever writes): every entry whose approved count equals its (positive) total
is promoted to the approved bucket and deleted from the mixed bucket; every
entry whose rejected count equals its (positive) total is promoted to the
rejected bucket and deleted from the mixed bucket; and the pass is
idempotent: running it twice gives the same store as running it once. -/
theorem fix_decisions_reconcile (s : Decisions)
    (hnd : (dkeys s.mixed).Nodup)
    (hwf : ∀ le ∈ s.mixed, le.2.approved + le.2.rejected ≤ le.2.total) :
    (∀ l e, (l, e) ∈ s.mixed → e.approved = e.total → 0 < e.total →
      dlookup (fix_decisions s).approved l = some e.file ∧
      dlookup (fix_decisions s).mixed l = none) ∧
    (∀ l e, (l, e) ∈ s.mixed → e.rejected = e.total → 0 < e.total →
      dlookup (fix_decisions s).rejected l = some e.file ∧
      dlookup (fix_decisions s).mixed l = none) ∧
    fix_decisions (fix_decisions s) = fix_decisions s := by
  refine ⟨?_, ?_, ?_⟩
  · intro l e hm he ht
    have hP : promoteApproved e = true := by
      simp [promoteApproved, he, Nat.pos_iff_ne_zero.mp ht]
    constructor
    · rw [fix_decisions, fix_foldl_approved]
      exact foldIns_mem _ _ _ _ _ hnd hm hP
    · rw [fix_decisions, fix_foldl_mixed]
      exact foldErase_mem_none _ _ _ _ e hm (by simp [hP])
  · intro l e hm he ht
    have hA : e.approved = 0 := by
      have hw : e.approved + e.rejected ≤ e.total := hwf (l, e) hm
      omega
    have hPA : promoteApproved e = false := by
      have h0 : (e.approved == e.total) = false := beq_eq_false_iff_ne.mpr (by omega)
      simp [promoteApproved, h0]
    have hP : promoteRejected e = true := by
      simp [promoteRejected, he, Nat.pos_iff_ne_zero.mp ht]
    constructor
    · rw [fix_decisions, fix_foldl_rejected]
      exact foldIns_mem _ _ _ _ _ hnd hm (by simp [hPA, hP])
    · rw [fix_decisions, fix_foldl_mixed]
      exact foldErase_mem_none _ _ _ _ e hm (by simp [hP])
  · have hmix := fix_decisions_mixed_not_promotable s
    calc fix_decisions (fix_decisions s)
        = (fix_decisions s).mixed.foldl fix_decisions_step (fix_decisions s) := rfl
      _ = fix_decisions s := foldl_fix_id _ _ hmix

/-- Witness for C5 at a concrete store: the unanimous entries are promoted
and deleted from the mixed bucket, and the pass is idempotent. -/
theorem fix_decisions_reconcile_witness :
    dlookup (fix_decisions reconDemoStore).approved "U001" = some "a.ts" ∧
    dlookup (fix_decisions reconDemoStore).mixed "U001" = none ∧
    dlookup (fix_decisions reconDemoStore).rejected "U002" = some "b.ts" ∧
    dlookup (fix_decisions reconDemoStore).mixed "U002" = none ∧
    fix_decisions (fix_decisions reconDemoStore) = fix_decisions reconDemoStore := by
  have h := fix_decisions_reconcile reconDemoStore (by decide) (by decide)
  have h1 := h.1 "U001" ⟨"a.ts", 2, 0, 2, "tA"⟩ (by decide) rfl (by decide)
  have h2 := h.2.1 "U002" ⟨"b.ts", 0, 3, 3, "tB"⟩ (by decide) rfl (by decide)
  exact ⟨h1.1, h1.2, h2.1, h2.2, h.2.2⟩

/-- C6 (counterexample): "promotion happens only through the explicit
reconciliation pass, never as a side effect of apply" is false.  For a
store whose only record of U001 is a unanimous mixed ("partial") entry,
running the promotion sweep that `apply_decisions` performs on every apply
puts U001 into the approved bucket (while also leaving the stale mixed
entry in place), so normal apply does promote unanimous partial entries. -/
theorem apply_promotes_counterexample :
    dlookup (Decisions.mk [] [] [("U001", ⟨"a.ts", 2, 0, 2, "t"⟩)]).approved
        "U001" = none ∧
    dlookup (apply_decisions_promote
        (Decisions.mk [] [] [("U001", ⟨"a.ts", 2, 0, 2, "t"⟩)])).approved
        "U001" = some "a.ts" ∧
    (apply_decisions_promote
        (Decisions.mk [] [] [("U001", ⟨"a.ts", 2, 0, 2, "t"⟩)])).mixed
      = [("U001", ⟨"a.ts", 2, 0, 2, "t"⟩)] := by
  exact ⟨rfl, rfl, rfl⟩

/-- C6 (amended): during normal apply, the mixed ("partial") and rejected
buckets are left unchanged, but every mixed entry whose approved count
equals its total IS copied into the approved bucket (without deleting the
stale mixed entry) as a side effect of `apply_decisions`; the sweep is not
persisted (apply never saves the decisions file). -/
theorem apply_promote_amended (s : Decisions)
    (hnd : (dkeys s.mixed).Nodup) :
    (apply_decisions_promote s).mixed = s.mixed ∧
    (apply_decisions_promote s).rejected = s.rejected ∧
    (∀ l e, (l, e) ∈ s.mixed → e.approved = e.total →
      dlookup (apply_decisions_promote s).approved l = some e.file) := by
  refine ⟨rfl, rfl, ?_⟩
  intro l e hm he
  exact foldIns_mem _ _ _ _ _ hnd hm (by simp [he])

/-- Witness for the amended C6 at a concrete store. -/
theorem apply_promote_amended_witness :
    (apply_decisions_promote
        (Decisions.mk [("U009", "z.ts")] [] [("U001", ⟨"a.ts", 2, 0, 2, "t"⟩)])).mixed
      = [("U001", ⟨"a.ts", 2, 0, 2, "t"⟩)] ∧
    (apply_decisions_promote
        (Decisions.mk [("U009", "z.ts")] [] [("U001", ⟨"a.ts", 2, 0, 2, "t"⟩)])).rejected
      = [] ∧
    dlookup (apply_decisions_promote
        (Decisions.mk [("U009", "z.ts")] [] [("U001", ⟨"a.ts", 2, 0, 2, "t"⟩)])).approved
        "U001" = some "a.ts" := by
  have h := apply_promote_amended
    (Decisions.mk [("U009", "z.ts")] [] [("U001", ⟨"a.ts", 2, 0, 2, "t"⟩)]) (by decide)
  exact ⟨h.1, h.2.1, h.2.2 "U001" ⟨"a.ts", 2, 0, 2, "t"⟩ (by decide) rfl⟩

theorem charListLe_total (as : List Char) :
    ∀ bs : List Char, charListLe as bs = true ∨ charListLe bs as = true := by
  induction as with
  | nil => intro bs; exact Or.inl rfl
  | cons a as ih =>
    intro bs
    cases bs with
    | nil => exact Or.inr rfl
    | cons b bs =>
      by_cases hab : a.toNat < b.toNat
      · left
        simp [charListLe, charLt, hab]
      · by_cases hba : b.toNat < a.toNat
        · right
          simp [charListLe, charLt, hba, hab]
        · rcases ih bs with h | h
          · left
            simp [charListLe, charLt, hab, hba, h]
          · right
            simp [charListLe, charLt, hab, hba, h]

theorem charListLe_trans (as : List Char) :
    ∀ bs cs : List Char,
      charListLe as bs = true → charListLe bs cs = true →
      charListLe as cs = true := by
  induction as with
  | nil => intro bs cs _ _; rfl
  | cons a as ih =>
    intro bs cs h1 h2
    cases bs with
    | nil => simp [charListLe] at h1
    | cons b bs =>
      cases cs with
      | nil => simp [charListLe] at h2
      | cons c cs =>
        simp only [charListLe] at h1 h2 ⊢
        by_cases hab : a.toNat < b.toNat
        · by_cases hbc : b.toNat < c.toNat
          · have hac : a.toNat < c.toNat := by omega
            simp [charLt, hac]
          · by_cases hcb : c.toNat < b.toNat
            · simp [charLt, hbc, hcb] at h2
            · have hac : a.toNat < c.toNat := by omega
              simp [charLt, hac]
        · by_cases hba : b.toNat < a.toNat
          · simp [charLt, hab, hba] at h1
          · by_cases hbc : b.toNat < c.toNat
            · have hac : a.toNat < c.toNat := by omega
              simp [charLt, hac]
            · by_cases hcb : c.toNat < b.toNat
              · simp [charLt, hbc, hcb] at h2
              · have hac : ¬ a.toNat < c.toNat := by omega
                have hca : ¬ c.toNat < a.toNat := by omega
                have h1a : charListLe as bs = true := by
                  simpa [charLt, hab, hba] using h1
                have h2a : charListLe bs cs = true := by
                  simpa [charLt, hbc, hcb] using h2
                simp [charLt, hac, hca]
                exact ih bs cs h1a h2a

theorem strLe_total (a b : String) : strLe a b = true ∨ strLe b a = true :=
  charListLe_total a.data b.data

theorem strLe_trans (a b c : String)
    (h1 : strLe a b = true) (h2 : strLe b c = true) : strLe a c = true :=
  charListLe_trans a.data b.data c.data h1 h2

theorem insertSorted_perm (x : String) (ys : List String) :
    List.Perm (insertSorted x ys) (x :: ys) := by
  induction ys with
  | nil => exact List.Perm.refl _
  | cons y ys ih =>
    by_cases h : strLe x y = true
    · rw [insertSorted, if_pos h]
    · rw [insertSorted, if_neg h]
      exact List.Perm.trans (List.Perm.cons y ih) (List.Perm.swap x y ys)

theorem sortStr_perm (xs : List String) : List.Perm (sortStr xs) xs := by
  induction xs with
  | nil => exact List.Perm.refl _
  | cons x xs ih =>
    exact List.Perm.trans (insertSorted_perm x (sortStr xs)) (List.Perm.cons x ih)

theorem mem_insertSorted (x a : String) (ys : List String) :
    a ∈ insertSorted x ys ↔ a = x ∨ a ∈ ys := by
  rw [(insertSorted_perm x ys).mem_iff]
  simp

theorem insertSorted_pairwise (x : String) (ys : List String)
    (h : ys.Pairwise (fun a b => strLe a b = true)) :
    (insertSorted x ys).Pairwise (fun a b => strLe a b = true) := by
  induction ys with
  | nil => simp [insertSorted]
  | cons y ys ih =>
    rcases List.pairwise_cons.mp h with ⟨hy, hys⟩
    by_cases hxy : strLe x y = true
    · rw [insertSorted, if_pos hxy]
      refine List.pairwise_cons.mpr ⟨fun b hb => ?_, h⟩
      rcases List.mem_cons.mp hb with hb | hb
      · exact hb ▸ hxy
      · exact strLe_trans x y b hxy (hy b hb)
    · rw [insertSorted, if_neg hxy]
      refine List.pairwise_cons.mpr ⟨fun b hb => ?_, ih hys⟩
      rcases (mem_insertSorted x b ys).mp hb with hb | hb
      · exact hb ▸ (strLe_total x y).resolve_left hxy
      · exact hy b hb

theorem sortStr_pairwise (xs : List String) :
    (sortStr xs).Pairwise (fun a b => strLe a b = true) := by
  induction xs with
  | nil => simp [sortStr]
  | cons x xs ih => exact insertSorted_pairwise x (sortStr xs) ih

theorem labelFrom_map_snd (pre : String) :
    ∀ (k : Nat) (ps : List String), (labelFrom pre k ps).map Prod.snd = ps := by
  intro k ps
  induction ps generalizing k with
  | nil => rfl
  | cons p ps ih => simp [labelFrom, ih]

theorem getGroup_cons (d0 : String) (fs : List String)
    (g : List (String × List String)) (d' : String) :
    getGroup ((d0, fs) :: g) d' = if d0 = d' then fs else getGroup g d' := by
  by_cases h : d0 = d' <;> simp [getGroup, dlookup, h]

theorem getGroup_addToGroup (g : List (String × List String)) (d f d' : String) :
    getGroup (addToGroup g d f) d' =
      if d' = d then getGroup g d' ++ [f] else getGroup g d' := by
  induction g with
  | nil =>
    by_cases h : d' = d
    · subst h
      simp [addToGroup, getGroup, dlookup]
    · simp [addToGroup, getGroup, dlookup, Ne.symm h, h]
  | cons e g ih =>
    obtain ⟨d0, fs0⟩ := e
    by_cases h0 : d0 = d
    · by_cases h : d0 = d'
      · have hdd : d' = d := h.symm.trans h0
        rw [addToGroup, if_pos h0, getGroup_cons, if_pos h, if_pos hdd,
          getGroup_cons, if_pos h]
      · have hdd : ¬ d' = d := fun he => h (h0.trans he.symm)
        rw [addToGroup, if_pos h0, getGroup_cons, if_neg h, if_neg hdd,
          getGroup_cons, if_neg h]
    · by_cases h : d0 = d'
      · have hdd : ¬ d' = d := fun he => h0 (h.trans he)
        rw [addToGroup, if_neg h0, getGroup_cons, if_pos h, if_neg hdd,
          getGroup_cons, if_pos h]
      · rw [addToGroup, if_neg h0, getGroup_cons, if_neg h, ih]
        by_cases hdd : d' = d
        · rw [if_pos hdd, if_pos hdd, getGroup_cons, if_neg h]
        · rw [if_neg hdd, if_neg hdd, getGroup_cons, if_neg h]

theorem getGroup_foldGroups (files : List String) :
    ∀ (acc : List (String × List String)) (d : String),
      getGroup (files.foldl (fun a f => addToGroup a (dirname f) f) acc) d =
        getGroup acc d ++ files.filter (fun f => dirname f == d) := by
  induction files with
  | nil => intro acc d; simp
  | cons f files ih =>
    intro acc d
    rw [List.foldl_cons, ih, getGroup_addToGroup]
    by_cases h : dirname f = d
    · rw [if_pos h.symm]
      simp [List.filter_cons, h]
    · rw [if_neg (fun he => h he.symm)]
      simp [List.filter_cons, h]

theorem getGroup_groupByDir (files : List String) (d : String) :
    getGroup (groupByDir files) d = files.filter (fun f => dirname f == d) := by
  rw [groupByDir, getGroup_foldGroups]
  simp [getGroup, dlookup]

theorem mem_dkeys_cons {α : Type} (k : String) (v : α)
    (m : List (String × α)) (k' : String) :
    k' ∈ dkeys ((k, v) :: m) ↔ k' = k ∨ k' ∈ dkeys m := by
  simp [dkeys]

theorem mem_dkeys_addToGroup (g : List (String × List String)) (d f d' : String) :
    d' ∈ dkeys (addToGroup g d f) ↔ d' ∈ dkeys g ∨ d' = d := by
  induction g with
  | nil => simp [addToGroup, dkeys]
  | cons e g ih =>
    obtain ⟨d0, fs0⟩ := e
    by_cases h0 : d0 = d
    · subst h0
      rw [addToGroup, if_pos rfl, mem_dkeys_cons, mem_dkeys_cons]
      tauto
    · rw [addToGroup, if_neg h0, mem_dkeys_cons, mem_dkeys_cons, ih]
      tauto

theorem mem_dkeys_foldGroups (files : List String) :
    ∀ (acc : List (String × List String)) (d : String),
      d ∈ dkeys (files.foldl (fun a f => addToGroup a (dirname f) f) acc) ↔
        d ∈ dkeys acc ∨ ∃ f, f ∈ files ∧ dirname f = d := by
  induction files with
  | nil => intro acc d; simp
  | cons f files ih =>
    intro acc d
    rw [List.foldl_cons, ih, mem_dkeys_addToGroup]
    constructor
    · rintro ((h | h) | ⟨f', hf', hd'⟩)
      · exact Or.inl h
      · exact Or.inr ⟨f, List.mem_cons_self f files, h.symm⟩
      · exact Or.inr ⟨f', List.mem_cons_of_mem _ hf', hd'⟩
    · rintro (h | ⟨f', hf', hd'⟩)
      · exact Or.inl (Or.inl h)
      · rcases List.mem_cons.mp hf' with he | hm
        · exact Or.inl (Or.inr (he ▸ hd').symm)
        · exact Or.inr ⟨f', hm, hd'⟩

theorem mem_dkeys_groupByDir (files : List String) (d : String) :
    d ∈ dkeys (groupByDir files) ↔ ∃ f, f ∈ files ∧ dirname f = d := by
  rw [groupByDir, mem_dkeys_foldGroups]
  simp [dkeys]

/-- C2 (counterexample): folder labels are NOT assigned in sorted order of
the folder paths.  For the change-set folder list `["b", "a"]` (reachable,
since `os.walk` emits directories in scan-encounter order, not sorted —
e.g. a parent's subdirectories always precede any nested subdirectory),
the code assigns F001 to "b", while sorted assignment would give F001
to "a". -/
theorem folder_labels_not_sorted_counterexample :
    process_new_folders ["b", "a"] = [("F001", "b"), ("F002", "a")] ∧
    sortStr ["b", "a"] = ["a", "b"] ∧
    dlookup (process_new_folders ["b", "a"]) "F001" ≠ some "a" := by
  refine ⟨rfl, by decide, by decide⟩

/-- C2 (amended): label assignment is a deterministic pure function of the
ChangeSet, but only the new-file and update labels follow sorted path
order; folder labels follow the encounter order of the folder list.
Concretely: `process_new_folders` labels folders in list order;
`process_updated_files` labels exactly the sorted permutation of the
updated files; `process_new_files` labels the files grouped by directory
with directories in sorted order and files sorted within each directory;
and the grouping's directories are precisely the `dirname`s of the files. -/
theorem assign_labels_amended (folders files updated : List String) :
    (process_new_folders folders).map Prod.snd = folders ∧
    (process_updated_files updated).map Prod.snd = sortStr updated ∧
    ((process_updated_files updated).map Prod.snd).Pairwise
      (fun a b => strLe a b = true) ∧
    List.Perm ((process_updated_files updated).map Prod.snd) updated ∧
    (process_new_files files).map Prod.snd = groupedSortedOrder files ∧
    (∀ d, d ∈ dkeys (groupByDir files) ↔ ∃ f, f ∈ files ∧ dirname f = d) := by
  refine ⟨labelFrom_map_snd "F" 1 folders, labelFrom_map_snd "U" 1 (sortStr updated),
    ?_, ?_, ?_, fun d => mem_dkeys_groupByDir files d⟩
  · rw [show (process_updated_files updated).map Prod.snd = sortStr updated from
      labelFrom_map_snd "U" 1 (sortStr updated)]
    exact sortStr_pairwise updated
  · rw [show (process_updated_files updated).map Prod.snd = sortStr updated from
      labelFrom_map_snd "U" 1 (sortStr updated)]
    exact sortStr_perm updated
  · simp only [process_new_files, groupedSortedOrder, labelFrom_map_snd]
    simp only [getGroup_groupByDir]

theorem mem_map_fst_filter {α β : Type} (m : List (α × β)) (q : α × β → Bool) (p : α) :
    p ∈ (m.filter q).map Prod.fst ↔ ∃ v, (p, v) ∈ m ∧ q (p, v) = true := by
  constructor
  · intro h
    obtain ⟨⟨p1, v⟩, he, hfst⟩ := List.mem_map.mp h
    obtain ⟨hm, hq⟩ := List.mem_filter.mp he
    have : p1 = p := hfst
    subst this
    exact ⟨v, hm, hq⟩
  · rintro ⟨v, hm, hq⟩
    exact List.mem_map.mpr ⟨(p, v), List.mem_filter.mpr ⟨hm, hq⟩, rfl⟩

theorem dlookup_eq_none_of_not_mem {κ α : Type} [DecidableEq κ]
    (m : List (κ × α)) (k : κ) (h : k ∉ dkeys m) :
    dlookup m k = none := by
  by_contra hne
  exact h ((mem_dkeys_iff_dlookup m k).mpr hne)

/-- C7 (counterexample): classification completeness fails.  A folder named
"shared" present in BOTH scans is in the union of the two scans but appears
in none of the six ChangeSet buckets (`scan_projects` only records folders
present on exactly one side), so "exactly one bucket" is violated. -/
theorem classification_gap_counterexample :
    ("shared" ∈ (ProjStructure.mk ["shared"] ([] : List (String × String))).folders) ∧
    (let cs := classify (ProjStructure.mk ["shared"] ([] : List (String × String)))
        (ProjStructure.mk ["shared"] ([] : List (String × String)))
     "shared" ∉ cs.newFolders ∧ "shared" ∉ cs.deletedFolders ∧
     "shared" ∉ cs.newFiles ∧ "shared" ∉ cs.updatedFiles ∧
     "shared" ∉ cs.identicalFiles ∧ "shared" ∉ cs.deletedFiles) := by
  exact ⟨by decide, by decide, by decide, by decide, by decide, by decide, by decide⟩

/-- C7 (amended): classification is complete and exclusive for FILE paths —
every path in the union of the two file maps lands in exactly one of
newFiles, updatedFiles, identicalFiles, deletedFiles — and a path that is a
folder on one side and a file on the other yields a folder-side
deletion/creation plus a file-side classification, never an update; but
folders present on BOTH sides land in no bucket (the stated completeness
over the union of the scans fails only for them).  The new-side file dict
is assumed to have unique keys, as every Python dict does. -/
theorem classification_amended {α : Type} [DecidableEq α]
    (old new : ProjStructure α) (hN : (dkeys new.files).Nodup) (p : α) :
    (p ∈ dkeys new.files → p ∉ dkeys old.files →
      p ∈ (classify old new).newFiles ∧ p ∉ (classify old new).updatedFiles ∧
      p ∉ (classify old new).identicalFiles ∧ p ∉ (classify old new).deletedFiles) ∧
    (∀ h h', dlookup new.files p = some h → dlookup old.files p = some h' → h' ≠ h →
      p ∉ (classify old new).newFiles ∧ p ∈ (classify old new).updatedFiles ∧
      p ∉ (classify old new).identicalFiles ∧ p ∉ (classify old new).deletedFiles) ∧
    (∀ h, dlookup new.files p = some h → dlookup old.files p = some h →
      p ∉ (classify old new).newFiles ∧ p ∉ (classify old new).updatedFiles ∧
      p ∈ (classify old new).identicalFiles ∧ p ∉ (classify old new).deletedFiles) ∧
    (p ∈ dkeys old.files → p ∉ dkeys new.files →
      p ∉ (classify old new).newFiles ∧ p ∉ (classify old new).updatedFiles ∧
      p ∉ (classify old new).identicalFiles ∧ p ∈ (classify old new).deletedFiles) ∧
    (p ∈ new.folders → p ∉ old.folders →
      p ∈ (classify old new).newFolders ∧ p ∉ (classify old new).deletedFolders) ∧
    (p ∈ old.folders → p ∉ new.folders →
      p ∈ (classify old new).deletedFolders ∧ p ∉ (classify old new).newFolders) ∧
    (p ∈ new.folders → p ∈ old.folders →
      p ∉ (classify old new).newFolders ∧ p ∉ (classify old new).deletedFolders) := by
  refine ⟨?_, ?_, ?_, ?_, ?_, ?_, ?_⟩
  · intro hn ho
    have hnone : dlookup old.files p = none := dlookup_eq_none_of_not_mem _ _ ho
    obtain ⟨h, hm⟩ : ∃ h, (p, h) ∈ new.files := by
      obtain ⟨⟨p1, h⟩, hmm, hf⟩ := List.mem_map.mp hn
      exact ⟨h, by rwa [show p1 = p from hf] at hmm⟩
    refine ⟨?_, ?_, ?_, ?_⟩
    · exact (mem_map_fst_filter _ _ _).mpr ⟨h, hm, by simp [hnone]⟩
    · intro hc
      obtain ⟨v, _, hq⟩ := (mem_map_fst_filter _ _ _).mp hc
      rw [hnone] at hq
      simp at hq
    · intro hc
      obtain ⟨v, _, hq⟩ := (mem_map_fst_filter _ _ _).mp hc
      rw [hnone] at hq
      simp at hq
    · intro hc
      obtain ⟨v, hmm, _⟩ := (mem_map_fst_filter _ _ _).mp hc
      exact ho (List.mem_map.mpr ⟨(p, v), hmm, rfl⟩)
  · intro h h' hsn hso hne
    refine ⟨?_, ?_, ?_, ?_⟩
    · intro hc
      obtain ⟨v, _, hq⟩ := (mem_map_fst_filter _ _ _).mp hc
      rw [hso] at hq
      simp at hq
    · exact (mem_map_fst_filter _ _ _).mpr
        ⟨h, mem_of_dlookup_eq_some _ _ _ hsn, by simp [hso, hne]⟩
    · intro hc
      obtain ⟨v, hmm, hq⟩ := (mem_map_fst_filter _ _ _).mp hc
      have hv : v = h := by
        have := dlookup_eq_of_nodup new.files p v hN hmm
        rw [hsn] at this
        exact (Option.some.injEq .. ▸ this).symm
      subst hv
      rw [hso] at hq
      simp at hq
      exact hne hq
    · intro hc
      obtain ⟨v, hmm, hq⟩ := (mem_map_fst_filter _ _ _).mp hc
      rw [hsn] at hq
      simp at hq
  · intro h hsn hso
    refine ⟨?_, ?_, ?_, ?_⟩
    · intro hc
      obtain ⟨v, _, hq⟩ := (mem_map_fst_filter _ _ _).mp hc
      rw [hso] at hq
      simp at hq
    · intro hc
      obtain ⟨v, hmm, hq⟩ := (mem_map_fst_filter _ _ _).mp hc
      have hv : v = h := by
        have := dlookup_eq_of_nodup new.files p v hN hmm
        rw [hsn] at this
        exact (Option.some.injEq .. ▸ this).symm
      subst hv
      rw [hso] at hq
      simp at hq
    · exact (mem_map_fst_filter _ _ _).mpr
        ⟨h, mem_of_dlookup_eq_some _ _ _ hsn, by simp [hso]⟩
    · intro hc
      obtain ⟨v, hmm, hq⟩ := (mem_map_fst_filter _ _ _).mp hc
      rw [hsn] at hq
      simp at hq
  · intro ho hn
    have hnone : dlookup new.files p = none := dlookup_eq_none_of_not_mem _ _ hn
    obtain ⟨h, hm⟩ : ∃ h, (p, h) ∈ old.files := by
      obtain ⟨⟨p1, h⟩, hmm, hf⟩ := List.mem_map.mp ho
      exact ⟨h, by rwa [show p1 = p from hf] at hmm⟩
    refine ⟨?_, ?_, ?_, ?_⟩
    · intro hc
      obtain ⟨v, hmm, _⟩ := (mem_map_fst_filter _ _ _).mp hc
      exact hn (List.mem_map.mpr ⟨(p, v), hmm, rfl⟩)
    · intro hc
      obtain ⟨v, hmm, _⟩ := (mem_map_fst_filter _ _ _).mp hc
      exact hn (List.mem_map.mpr ⟨(p, v), hmm, rfl⟩)
    · intro hc
      obtain ⟨v, hmm, _⟩ := (mem_map_fst_filter _ _ _).mp hc
      exact hn (List.mem_map.mpr ⟨(p, v), hmm, rfl⟩)
    · exact (mem_map_fst_filter _ _ _).mpr ⟨h, hm, by simp [hnone]⟩
  · intro hn ho
    constructor
    · exact List.mem_filter.mpr ⟨hn, by simp [ho]⟩
    · intro hc
      exact ho (List.mem_filter.mp hc).1
  · intro ho hn
    constructor
    · exact List.mem_filter.mpr ⟨ho, by simp [hn]⟩
    · intro hc
      have := (List.mem_filter.mp hc).2
      simp at this
      exact this ho
  · intro hn ho
    constructor
    · intro hc
      have := (List.mem_filter.mp hc).2
      simp at this
      exact this ho
    · intro hc
      have := (List.mem_filter.mp hc).2
      simp at this
      exact this hn

/-- Witness for the amended C7 at concrete scans: "a.ts" exists on both
sides with different hashes and is classified (only) as updated; "b.ts" is
new-side only and classified (only) as new. -/
theorem classification_amended_witness :
    ("a.ts" ∈ (classify (ProjStructure.mk ["shared"] [("a.ts", "h1"), ("c.ts", "h")])
        (ProjStructure.mk ["shared"] [("a.ts", "h2"), ("b.ts", "h")])).updatedFiles ∧
      "a.ts" ∉ (classify (ProjStructure.mk ["shared"] [("a.ts", "h1"), ("c.ts", "h")])
        (ProjStructure.mk ["shared"] [("a.ts", "h2"), ("b.ts", "h")])).identicalFiles) ∧
    "b.ts" ∈ (classify (ProjStructure.mk ["shared"] [("a.ts", "h1"), ("c.ts", "h")])
        (ProjStructure.mk ["shared"] [("a.ts", "h2"), ("b.ts", "h")])).newFiles := by
  have h1 := classification_amended
    (ProjStructure.mk ["shared"] [("a.ts", "h1"), ("c.ts", "h")])
    (ProjStructure.mk ["shared"] [("a.ts", "h2"), ("b.ts", "h")]) (by decide) "a.ts"
  have h2 := classification_amended
    (ProjStructure.mk ["shared"] [("a.ts", "h1"), ("c.ts", "h")])
    (ProjStructure.mk ["shared"] [("a.ts", "h2"), ("b.ts", "h")]) (by decide) "b.ts"
  have ha := h1.2.1 "h2" "h1" (by decide) (by decide) (by decide)
  have hb := h2.1 (by decide) (by decide)
  exact ⟨⟨ha.2.1, ha.2.2.1⟩, hb.1⟩

theorem basename_concat (l : List String) (a : String) :
    basename (l ++ [a]) = a := by
  induction l with
  | nil => rfl
  | cons x l ih =>
    have hne : (l ++ [a]).isEmpty = false := by
      cases l
      · rfl
      · rfl
    rw [List.cons_append, basename, hne]
    simpa using ih

theorem scanFiles_shape (readHash : List String → Option String)
    (walk : List WalkEntry) (p : List String) (h : String)
    (hm : (p, h) ∈ scanFiles readHash walk) :
    ∃ f, skip_file f = false ∧ ∃ root, p = root ++ [f] := by
  induction walk with
  | nil => simp [scanFiles] at hm
  | cons e walk ih =>
    rw [scanFiles] at hm
    rcases List.mem_append.mp hm with hm | hm
    · obtain ⟨f, hfm, hf⟩ := List.mem_filterMap.mp hm
      by_cases hs : skip_file f = true
      · rw [if_pos hs] at hf
        exact absurd hf (by simp)
      · rw [if_neg hs] at hf
        obtain ⟨hh, hrh, heq⟩ := Option.map_eq_some'.mp hf
        have hp : e.root ++ [f] = p := congrArg Prod.fst heq
        have hsf : skip_file f = false := by
          simpa using hs
        exact ⟨f, hsf, e.root, hp.symm⟩
    · exact ih hm

theorem basename_not_skipped (walk : List WalkEntry)
    (readHash : List String → Option String) (p : List String)
    (hp : p ∈ dkeys (get_project_structure walk readHash).files) :
    skip_file (basename p) = false := by
  obtain ⟨⟨p1, h⟩, hm, hf⟩ := List.mem_map.mp hp
  have hp1 : p1 = p := hf
  subst hp1
  obtain ⟨f, hsk, root, hroot⟩ := scanFiles_shape readHash walk p1 h hm
  rw [hroot, basename_concat]
  exact hsk

theorem skip_file_false_parts (b : String) (h : skip_file b = false) :
    strStarts b "." = false ∧ strEnds b ".pyc" = false ∧
    strEnds b ".log" = false := by
  rw [skip_file] at h
  simp only [Bool.or_eq_false_iff] at h
  exact ⟨h.1.1, h.1.2, h.2⟩

/-- C10: the scanner never reports a file whose basename starts with "."
or ends with ".pyc" or ".log" — such files are silently excluded from both
scanned structures, and consequently never appear in any file bucket of the
change set, even when their content differs between the trees. -/
theorem scan_excludes_hidden (oldWalk newWalk : List WalkEntry)
    (oldHash newHash : List String → Option String) (p : List String) :
    (p ∈ dkeys (get_project_structure newWalk newHash).files →
      strStarts (basename p) "." = false ∧
      strEnds (basename p) ".pyc" = false ∧ strEnds (basename p) ".log" = false) ∧
    (p ∈ dkeys (get_project_structure oldWalk oldHash).files →
      strStarts (basename p) "." = false ∧
      strEnds (basename p) ".pyc" = false ∧ strEnds (basename p) ".log" = false) ∧
    ((p ∈ (classify (get_project_structure oldWalk oldHash)
          (get_project_structure newWalk newHash)).newFiles ∨
      p ∈ (classify (get_project_structure oldWalk oldHash)
          (get_project_structure newWalk newHash)).updatedFiles ∨
      p ∈ (classify (get_project_structure oldWalk oldHash)
          (get_project_structure newWalk newHash)).identicalFiles ∨
      p ∈ (classify (get_project_structure oldWalk oldHash)
          (get_project_structure newWalk newHash)).deletedFiles) →
      strStarts (basename p) "." = false ∧
      strEnds (basename p) ".pyc" = false ∧ strEnds (basename p) ".log" = false) := by
  refine ⟨?_, ?_, ?_⟩
  · intro hp
    exact skip_file_false_parts _ (basename_not_skipped newWalk newHash p hp)
  · intro hp
    exact skip_file_false_parts _ (basename_not_skipped oldWalk oldHash p hp)
  · intro hp
    have hmem : p ∈ dkeys (get_project_structure newWalk newHash).files ∨
        p ∈ dkeys (get_project_structure oldWalk oldHash).files := by
      rcases hp with hp | hp | hp | hp
      · obtain ⟨v, hm, _⟩ := (mem_map_fst_filter _ _ _).mp hp
        exact Or.inl (List.mem_map.mpr ⟨(p, v), hm, rfl⟩)
      · obtain ⟨v, hm, _⟩ := (mem_map_fst_filter _ _ _).mp hp
        exact Or.inl (List.mem_map.mpr ⟨(p, v), hm, rfl⟩)
      · obtain ⟨v, hm, _⟩ := (mem_map_fst_filter _ _ _).mp hp
        exact Or.inl (List.mem_map.mpr ⟨(p, v), hm, rfl⟩)
      · obtain ⟨v, hm, _⟩ := (mem_map_fst_filter _ _ _).mp hp
        exact Or.inr (List.mem_map.mpr ⟨(p, v), hm, rfl⟩)
    rcases hmem with hmem | hmem
    · exact skip_file_false_parts _ (basename_not_skipped newWalk newHash p hmem)
    · exact skip_file_false_parts _ (basename_not_skipped oldWalk oldHash p hmem)

/-- Witness for C10 at a concrete walk: of the files "b.ts", ".env" and
"x.pyc", only "b.ts" survives the scan, and it lands in newFiles with a
non-hidden basename. -/
theorem scan_excludes_hidden_witness :
    dkeys (get_project_structure [WalkEntry.mk [] [] ["b.ts", ".env", "x.pyc"]]
      (fun _ => some "h")).files = [["b.ts"]] ∧
    (["b.ts"] ∈ (classify (get_project_structure [] (fun _ => none))
        (get_project_structure [WalkEntry.mk [] [] ["b.ts", ".env", "x.pyc"]]
          (fun _ => some "h"))).newFiles) ∧
    strStarts (basename ["b.ts"]) "." = false ∧
    strEnds (basename ["b.ts"]) ".pyc" = false ∧
    strEnds (basename ["b.ts"]) ".log" = false := by
  have h := scan_excludes_hidden [] [WalkEntry.mk [] [] ["b.ts", ".env", "x.pyc"]]
    (fun _ => none) (fun _ => some "h") ["b.ts"]
  exact ⟨by decide, by decide, h.1 (by decide)⟩

theorem append_backup_ne (s : String) : s ++ ".backup" ≠ s := by
  intro h
  have hlen := congrArg String.length h
  rw [String.length_append] at hlen
  have h7 : (".backup" : String).length = 7 := rfl
  omega

/-- C3 (counterexample): an existing backup is NOT preserved.  Applying the
same update twice from a filesystem where the target holds "X" and the
source holds "Y" rewrites the backup on the second apply, so afterwards the
backup contains "Y" (the post-first-apply content), not the pre-first-apply
content "X" the claim requires. -/
theorem apply_backup_overwritten_counterexample :
    (Option.bind
      (apply_change_update [("old/a.ts", "X"), ("new/a.ts", "Y")] "new/a.ts" "old/a.ts")
      (fun fs1 => apply_change_update fs1 "new/a.ts" "old/a.ts")) =
      some [("old/a.ts", "Y"), ("new/a.ts", "Y"), ("old/a.ts.backup", "Y")] ∧
    dlookup [("old/a.ts", "Y"), ("new/a.ts", "Y"), ("old/a.ts.backup", "Y")]
      "old/a.ts.backup" = some "Y" ∧
    ("Y" : String) ≠ "X" := by
  exact ⟨by decide, by decide, by decide⟩

/-- C3 (amended): the backup is (re)written on every apply.  After one
apply the target holds the source content and the backup holds the
pre-apply target content; applying the same label twice still leaves the
target byte-identical to the source and creates no path beyond the single
backup path, but the backup then holds the source content too — the
pre-first-apply content is lost, because an existing backup is replaced,
not preserved. -/
theorem apply_update_amended (fs : List (String × String)) (src dst cS cD : String)
    (hdst : dlookup fs dst = some cD) (hsrc : dlookup fs src = some cS)
    (h1 : src ≠ dst) (h2 : src ≠ dst ++ ".backup") :
    ∃ fs1 fs2,
      apply_change_update fs src dst = some fs1 ∧
      apply_change_update fs1 src dst = some fs2 ∧
      dlookup fs1 dst = some cS ∧
      dlookup fs1 (dst ++ ".backup") = some cD ∧
      dlookup fs2 dst = some cS ∧
      dlookup fs2 (dst ++ ".backup") = some cS ∧
      (∀ q, q ≠ dst → q ≠ dst ++ ".backup" → dlookup fs2 q = dlookup fs q) := by
  have hbk : dst ++ ".backup" ≠ dst := append_backup_ne dst
  have hsrc1 : dlookup (dinsert fs (dst ++ ".backup") cD) src = some cS := by
    rw [dlookup_dinsert_ne _ _ _ _ h2]
    exact hsrc
  refine ⟨dinsert (dinsert fs (dst ++ ".backup") cD) dst cS, ?_, ?_, ?_, ?_, ?_, ?_, ?_, ?_⟩
  · exact dinsert (dinsert (dinsert (dinsert fs (dst ++ ".backup") cD) dst cS)
      (dst ++ ".backup") cS) dst cS
  · simp only [apply_change_update, hdst]
    rw [hsrc1]
  · have hd1 : dlookup (dinsert (dinsert fs (dst ++ ".backup") cD) dst cS) dst = some cS :=
      dlookup_dinsert_self _ _ _
    have hs1 : dlookup (dinsert (dinsert (dinsert fs (dst ++ ".backup") cD) dst cS)
        (dst ++ ".backup") cS) src = some cS := by
      rw [dlookup_dinsert_ne _ _ _ _ h2, dlookup_dinsert_ne _ _ _ _ h1]
      exact hsrc1
    simp only [apply_change_update, hd1]
    rw [hs1]
  · exact dlookup_dinsert_self _ _ _
  · rw [dlookup_dinsert_ne _ _ _ _ hbk]
    exact dlookup_dinsert_self _ _ _
  · exact dlookup_dinsert_self _ _ _
  · rw [dlookup_dinsert_ne _ _ _ _ hbk]
    exact dlookup_dinsert_self _ _ _
  · intro q hq1 hq2
    rw [dlookup_dinsert_ne _ _ _ _ hq1, dlookup_dinsert_ne _ _ _ _ hq2,
      dlookup_dinsert_ne _ _ _ _ hq1, dlookup_dinsert_ne _ _ _ _ hq2]

/-- Witness for the amended C3 at a concrete filesystem: both applies
succeed, and after the first apply the backup holds the original "X". -/
theorem apply_update_amended_witness :
    apply_change_update [("old/a.ts", "X"), ("new/a.ts", "Y")] "new/a.ts" "old/a.ts"
      = some [("old/a.ts", "Y"), ("new/a.ts", "Y"), ("old/a.ts.backup", "X")] ∧
    apply_change_update [("old/a.ts", "Y"), ("new/a.ts", "Y"), ("old/a.ts.backup", "X")]
        "new/a.ts" "old/a.ts"
      = some [("old/a.ts", "Y"), ("new/a.ts", "Y"), ("old/a.ts.backup", "Y")] ∧
    dlookup [("old/a.ts", "Y"), ("new/a.ts", "Y"), ("old/a.ts.backup", "X")]
      ("old/a.ts" ++ ".backup") = some "X" := by
  obtain ⟨fs1, fs2, ha1, ha2, hb1, hb2, hc1, hc2, hframe⟩ :=
    apply_update_amended [("old/a.ts", "X"), ("new/a.ts", "Y")] "new/a.ts" "old/a.ts"
      "Y" "X" (by decide) (by decide) (by decide) (by decide)
  refine ⟨by decide, by decide, ?_⟩
  have hfs1 : fs1 = [("old/a.ts", "Y"), ("new/a.ts", "Y"), ("old/a.ts.backup", "X")] := by
    have h := ha1
    rw [show apply_change_update [("old/a.ts", "X"), ("new/a.ts", "Y")] "new/a.ts" "old/a.ts"
        = some [("old/a.ts", "Y"), ("new/a.ts", "Y"), ("old/a.ts.backup", "X")] from by decide]
      at h
    exact (Option.some_inj.mp h).symm
  rw [← hfs1]
  exact hb2

/-- C9 (code_bug evidence): the hunk round-trip fails.  The two hunks are
exactly the unified diff of the two files (first conjunct), and applying
them from back to front even reproduces the new file (second conjunct) —
but the code applies them in file order at their unadjusted header offsets
(`_apply_hunk` splices at `old_start - 1` of the CURRENT list), and after
the first hunk shrinks the file by one line the second hunk splices one
line too low, duplicating line "9" and losing the round-trip (the code's
own comment calls the implementation "simplified"). -/
theorem hunk_roundtrip_bug :
    hunksMatchB 0 0 exOldLines exNewLines [exHunk1, exHunk2] = true ∧
    List.foldr (fun h acc => apply_hunk acc h) exOldLines [exHunk1, exHunk2]
      = exNewLines ∧
    applyAllHunks exOldLines [exHunk1, exHunk2] =
      ["2\n", "3\n", "4\n", "5\n", "6\n", "7\n", "8\n", "9\n", "9\n",
       "10\n", "11\n", "X\n"] ∧
    applyAllHunks exOldLines [exHunk1, exHunk2] ≠ exNewLines := by
  exact ⟨by decide, by decide, by decide, by decide⟩

/-- C8 (counterexample): the original error-handling claim fails on both
counts.  A label whose preview directory has no `.diff` artifact is NOT
logged and skipped: `review_file` indexes the empty glob list and dies
with an uncaught IndexError (first two conjuncts; a complete triple is
found normally).  And for an updated file whose old version cannot be
read, the batch does NOT continue with the remaining files: the `.OLD`
preview copy raises uncaught and the two-file batch aborts with no file
processed (last two conjuncts). -/
theorem missing_artifact_aborts_counterexample :
    review_file_artifacts ["SUMMARY.txt"] = Except.error "IndexError" ∧
    review_file_artifacts ["a.ts.diff", "a.ts.OLD", "a.ts.NEW", "SUMMARY.txt"]
      = Except.ok ("a.ts.diff", "a.ts.OLD", "a.ts.NEW") ∧
    (process_updated_files_loop (fun _ _ => []) (fun _ => FileRead.missing)
      (fun _ => FileRead.text []) ["a.ts", "b.ts"]).2 = some "IOError" ∧
    (process_updated_files_loop (fun _ _ => []) (fun _ => FileRead.missing)
      (fun _ => FileRead.text []) ["a.ts", "b.ts"]).1 = [] := by
  exact ⟨rfl, rfl, rfl, rfl⟩

theorem loop_all_copyable (udiff : List String → List String → List String)
    (readOld readNew : String → FileRead) :
    ∀ files : List String,
      (∀ p ∈ files, copyable (readOld p) = true ∧ copyable (readNew p) = true) →
      (process_updated_files_loop udiff readOld readNew files).2 = none ∧
      (process_updated_files_loop udiff readOld readNew files).1.length = files.length ∧
      (∀ p ∈ files,
        (p, (create_diff_file udiff (textLines (readOld p)) (textLines (readNew p))).2)
          ∈ (process_updated_files_loop udiff readOld readNew files).1) := by
  intro files
  induction files with
  | nil =>
    intro _
    exact ⟨rfl, rfl, fun p hp => absurd hp (List.not_mem_nil p)⟩
  | cons p ps ih =>
    intro h
    have hp := h p (List.mem_cons_self p ps)
    obtain ⟨ih1, ih2, ih3⟩ := ih (fun q hq => h q (List.mem_cons_of_mem _ hq))
    have hO : ¬ copyable (readOld p) = false := by simp [hp.1]
    have hN : ¬ copyable (readNew p) = false := by simp [hp.2]
    rw [process_updated_files_loop, if_neg hO, if_neg hN]
    refine ⟨ih1, by simpa using ih2, ?_⟩
    intro q hq
    rcases List.mem_cons.mp hq with hq | hq
    · subst hq
      exact List.mem_cons_self _ _
    · exact List.mem_cons_of_mem _ (ih3 q hq)

theorem loop_abort (udiff : List String → List String → List String)
    (readOld readNew : String → FileRead) :
    ∀ files : List String,
      (∃ p, p ∈ files ∧
        (copyable (readOld p) = false ∨ copyable (readNew p) = false)) →
      (process_updated_files_loop udiff readOld readNew files).2 ≠ none := by
  intro files
  induction files with
  | nil =>
    rintro ⟨p, hp, _⟩
    exact absurd hp (List.not_mem_nil p)
  | cons p ps ih =>
    rintro ⟨q, hq, hcopy⟩
    by_cases hO : copyable (readOld p) = false
    · rw [process_updated_files_loop, if_pos hO]
      simp
    · by_cases hN : copyable (readNew p) = false
      · rw [process_updated_files_loop, if_neg hO, if_pos hN]
        simp
      · have hq2 : q ∈ ps := by
          rcases List.mem_cons.mp hq with he | hm
          · subst he
            rcases hcopy with hc | hc
            · exact absurd hc hO
            · exact absurd hc hN
          · exact hm
        have habort := ih ⟨q, hq2, hcopy⟩
        rw [process_updated_files_loop, if_neg hO, if_neg hN]
        exact habort

/-- C8 (amended): when either side of an updated file cannot be read or
decoded, the diff generator catches the error and returns zero added and
removed counts WITHOUT writing any diff artifact; the update batch then
continues with the remaining files only when both versions are still
byte-copyable (i.e. for decode errors) — if either version cannot be read
at all, the `.OLD`/`.NEW` preview copy that follows the diff step raises
an uncaught error that aborts the batch; and a label whose on-disk `.diff`
preview artifact has no glob match makes `review_file` abort with an
uncaught IndexError rather than being logged and skipped. -/
theorem diff_error_handling_amended
    (udiff : List String → List String → List String)
    (readOld readNew : String → FileRead) (files : List String) :
    (∀ p, textLines (readOld p) = none ∨ textLines (readNew p) = none →
      create_diff_file udiff (textLines (readOld p)) (textLines (readNew p))
        = (none, ⟨0, 0⟩)) ∧
    ((∀ p ∈ files, copyable (readOld p) = true ∧ copyable (readNew p) = true) →
      (process_updated_files_loop udiff readOld readNew files).2 = none ∧
      (process_updated_files_loop udiff readOld readNew files).1.length
        = files.length ∧
      (∀ p ∈ files,
        (p, (create_diff_file udiff (textLines (readOld p)) (textLines (readNew p))).2)
          ∈ (process_updated_files_loop udiff readOld readNew files).1)) ∧
    ((∃ p, p ∈ files ∧
        (copyable (readOld p) = false ∨ copyable (readNew p) = false)) →
      (process_updated_files_loop udiff readOld readNew files).2 ≠ none) ∧
    (∀ arts : List String, arts.filter (fun f => strEnds f ".diff") = [] →
      review_file_artifacts arts = Except.error "IndexError") := by
  refine ⟨?_, loop_all_copyable udiff readOld readNew files,
    loop_abort udiff readOld readNew files, ?_⟩
  · intro p hp
    rcases hp with hp | hp
    · rw [hp]
      cases textLines (readNew p) <;> rfl
    · rw [hp]
      cases textLines (readOld p) <;> rfl
  · intro arts h
    simp [review_file_artifacts, globFirst, h]

/-- Witness for the amended C8 at concrete inputs: an undecodable old file
yields zero counts and no diff while the batch completes; an unreadable
old file aborts the batch; and an empty artifact directory aborts with the
IndexError. -/
theorem diff_error_handling_witness :
    create_diff_file (fun _ _ => []) (textLines FileRead.binary)
      (textLines (FileRead.text [])) = (none, ⟨0, 0⟩) ∧
    (process_updated_files_loop (fun _ _ => []) (fun _ => FileRead.binary)
      (fun _ => FileRead.text []) ["a.ts"]).2 = none ∧
    (process_updated_files_loop (fun _ _ => []) (fun _ => FileRead.binary)
      (fun _ => FileRead.text []) ["a.ts"]).1.length = 1 ∧
    ("a.ts", DiffStats.mk 0 0) ∈ (process_updated_files_loop (fun _ _ => [])
      (fun _ => FileRead.binary) (fun _ => FileRead.text []) ["a.ts"]).1 ∧
    (process_updated_files_loop (fun _ _ => []) (fun _ => FileRead.missing)
      (fun _ => FileRead.text []) ["a.ts"]).2 ≠ none ∧
    review_file_artifacts [] = Except.error "IndexError" := by
  have hA := diff_error_handling_amended (fun _ _ => []) (fun _ => FileRead.binary)
    (fun _ => FileRead.text []) ["a.ts"]
  have hB := diff_error_handling_amended (fun _ _ => []) (fun _ => FileRead.missing)
    (fun _ => FileRead.text []) ["a.ts"]
  obtain ⟨h2a, h2b, h2c⟩ := hA.2.1 (by decide)
  refine ⟨hA.1 "a.ts" (Or.inl rfl), h2a, h2b, ?_,
    hB.2.2.1 ⟨"a.ts", List.mem_cons_self _ _, Or.inl rfl⟩, hA.2.2.2 [] rfl⟩
  exact h2c "a.ts" (by decide)

theorem mem_of_mem_dinsert {κ α : Type} [DecidableEq κ]
    (m : List (κ × α)) (k : κ) (v : α) (e : κ × α) (h : e ∈ dinsert m k v) :
    e ∈ m ∨ e = (k, v) := by
  induction m with
  | nil =>
    simp [dinsert] at h
    exact Or.inr h
  | cons e' m ih =>
    obtain ⟨k', v'⟩ := e'
    by_cases hk : k' = k
    · rw [dinsert, if_pos hk] at h
      rcases List.mem_cons.mp h with h | h
      · exact Or.inr h
      · exact Or.inl (List.mem_cons_of_mem _ h)
    · rw [dinsert, if_neg hk] at h
      rcases List.mem_cons.mp h with h | h
      · exact Or.inl (h ▸ List.mem_cons_self _ _)
      · rcases ih h with h | h
        · exact Or.inl (List.mem_cons_of_mem _ h)
        · exact Or.inr h

theorem countP_approved_add_rejected_le_length (hd : List HunkDecision) :
    hd.countP (fun d => d == HunkDecision.approved) +
      hd.countP (fun d => d == HunkDecision.rejected) ≤ hd.length := by
  induction hd with
  | nil => simp
  | cons d hd ih =>
    cases d <;> simp [List.countP_cons] <;> omega

/-- Every mixed-bucket entry `review_file` ever writes has consistent
counts, so the count hypothesis of the reconciliation theorem holds for
every store the program itself produces. -/
theorem review_file_record_wf (s : Decisions) (label file ts : String)
    (hd : List HunkDecision)
    (hwf : ∀ le ∈ s.mixed, le.2.approved + le.2.rejected ≤ le.2.total) :
    ∀ le ∈ (review_file_record s label file ts hd).mixed,
      le.2.approved + le.2.rejected ≤ le.2.total := by
  intro le hle
  by_cases hA : hd.countP (fun d => d == HunkDecision.approved) = hd.length
  · simp only [review_file_record, hA, if_true, if_pos] at hle
    exact hwf le (mem_of_mem_derase _ _ _ hle)
  · by_cases hR : hd.countP (fun d => d == HunkDecision.rejected) = hd.length
    · simp only [review_file_record, if_neg hA, hR, if_true, if_pos] at hle
      exact hwf le (mem_of_mem_derase _ _ _ hle)
    · simp only [review_file_record, if_neg hA, if_neg hR] at hle
      rcases mem_of_mem_dinsert _ _ _ _ hle with h | h
      · exact hwf le h
      · rw [h]
        exact countP_approved_add_rejected_le_length hd

end FigmaSync
